import Mathlib

/-!
Verification development for the `asmap-rs` bottleneck finder
(`src/find_bottleneck.rs`).

The development shallowly embeds the core of `FindBottleneck`:
the per-prefix AS-path collection (`match_rib_entry`), address
reconstruction (`format_ip`), the batched streaming reader
(`parse_mrt`), the common-suffix bottleneck resolver
(`find_common_suffix` / `find_as_bottleneck`), and the whole
per-bin driver (`locate`).

Modelling conventions:
* `u8`/`u32` values are `Nat`; wire bytes are reduced `% 256`
  exactly where the Rust type system guarantees `u8`.
* `HashMap`/`HashSet` become association lists / duplicate-free
  insertion lists; iteration order is the list order (the Rust
  iteration order is unspecified, and every proved statement is
  either order-independent or about a concrete deterministic run).
* A Rust panic (index out of bounds, `pop` of an empty vector) is
  an explicit `fatal` outcome / `none`.
* Logging is I/O and is not modelled; only control flow is.
-/

namespace FindBottleneck

/-- IP address value as reassembled by `format_ip`: four octets for
IPv4, eight 16-bit segments for IPv6. -/
inductive IpAddr where
  | v4 (a b c d : Nat)
  | v6 (s0 s1 s2 s3 s4 s5 s6 s7 : Nat)
deriving DecidableEq, Repr

/-- Leading byte of the address, `ip.octets()[0]` in the source:
the first octet for IPv4, the high byte of the first segment for IPv6. -/
def octet0 : IpAddr → Nat
  | .v4 a _ _ _ => a
  | .v6 s0 _ _ _ _ _ _ _ => s0 / 256

/-- Big-endian `u16::from_be_bytes([hi, lo])`. -/
def u16be (hi lo : Nat) : Nat := hi * 256 + lo

/-- Embedding of `FindBottleneck::format_ip`: the prefix byte slice is
padded with 17 zero bytes and reassembled.  The IPv6 arm reproduces the
source indices exactly: bytes 0-5 and then 7-16 (byte 6 is skipped by
the source). -/
def format_ip (ip : List Nat) (is_ipv4 : Bool) : IpAddr :=
  let padded := ip ++ List.replicate 17 0
  let b := fun i => padded.getD i 0 % 256
  if is_ipv4 then .v4 (b 0) (b 1) (b 2) (b 3)
  else .v6 (u16be (b 0) (b 1)) (u16be (b 2) (b 3)) (u16be (b 4) (b 5))
    (u16be (b 7) (b 8)) (u16be (b 9) (b 10)) (u16be (b 11) (b 12))
    (u16be (b 13) (b 14)) (u16be (b 15) (b 16))

/-- Modelled from the spec: octet-faithful address reconstruction
("prefix bytes are right-padded with zero bytes to the full address
width", "preserve exact byte-to-octet/word mapping"): byte `i` of the
input becomes octet `i` of the address, so IPv6 segment `k` is built
from bytes `2k` and `2k+1`.  This is the reference that `format_ip`
is compared against. -/
def format_ip_bytewise (ip : List Nat) (is_ipv4 : Bool) : IpAddr :=
  let padded := ip ++ List.replicate 17 0
  let b := fun i => padded.getD i 0 % 256
  if is_ipv4 then .v4 (b 0) (b 1) (b 2) (b 3)
  else .v6 (u16be (b 0) (b 1)) (u16be (b 2) (b 3)) (u16be (b 4) (b 5))
    (u16be (b 6) (b 7)) (u16be (b 8) (b 9)) (u16be (b 10) (b 11))
    (u16be (b 12) (b 13)) (u16be (b 14) (b 15))

/-- The `Address` key: `(ip, mask)` pair, equality on the exact pair. -/
structure Address where
  ip : IpAddr
  mask : Nat
deriving DecidableEq, Repr

/-- A path set (`HashSet<Vec<u32>>`): list of distinct AS paths. -/
abbrev PathSet := List (List Nat)

/-- A batch map (`HashMap<Address, HashSet<Vec<u32>>>`). -/
abbrev MrtMap := List (Address × PathSet)

/-- Tail of Rust `Vec::dedup`: drop elements equal to the previous
kept element. -/
def dedupFrom (prev : Nat) : List Nat → List Nat
  | [] => []
  | b :: rest => if prev = b then dedupFrom prev rest else b :: dedupFrom b rest

/-- Rust `Vec::dedup`: collapse consecutive duplicate elements,
keeping the first of each run. -/
def dedupConsec : List Nat → List Nat
  | [] => []
  | a :: rest => a :: dedupFrom a rest

/-- `HashSet::insert`: add the path if it is not already present. -/
def setInsert (s : PathSet) (p : List Nat) : PathSet :=
  if p ∈ s then s else s ++ [p]

/-- `mrt_hm.entry(addr).or_insert_with(HashSet::new).insert(path)`. -/
def mapInsertPath : MrtMap → Address → List Nat → MrtMap
  | [], a, p => [(a, [p])]
  | (k, s) :: rest, a, p =>
    if k = a then (k, setInsert s p) :: rest
    else (k, s) :: mapInsertPath rest a p

/-- One per-peer RIB entry: the result of `AsPathParser::parse` on its
attribute blob (`some path` on success, `none` on failure). -/
abbrev RibEntry := Option (List Nat)

/-- Embedding of `FindBottleneck::match_rib_entry`: for every per-peer
entry, on parse success dedup the path and insert it into the address's
path set; on failure skip only that entry. -/
def match_rib_entry (entries : List RibEntry) (ip : IpAddr) (mask : Nat)
    (mrt_hm : MrtMap) : MrtMap :=
  let addr : Address := ⟨ip, mask⟩
  entries.foldl
    (fun m e =>
      match e with
      | some as_path => mapInsertPath m addr (dedupConsec as_path)
      | none => m)
    mrt_hm

/-- One result of `reader.read()` as `parse_mrt` consumes it: a typed
RIB record (IPv4 or IPv6 unicast), any other record kind (ignored), or
a decode error (`Err`; the error kind only changes the logged text). -/
inductive MrtRecord where
  | ribV4 (pfx : List Nat) (prefix_length : Nat) (entries : List RibEntry)
  | ribV6 (pfx : List Nat) (prefix_length : Nat) (entries : List RibEntry)
  | other
  | readErr
deriving DecidableEq, Repr

/-- Embedding of `FindBottleneck::parse_mrt` on one decoder.  The input
list is the stream of remaining read results; the value is the final
`mrt_hm`, the final `next_mrt_hm` and the unconsumed remainder of the
stream (the decoder position at which the next bin resumes).  A RIB
record whose leading address byte exceeds `current_end_high_octet` is
merged into `next_mrt_hm` and the loop breaks; `other` records are
skipped; a read error only logs and the loop continues (the source's
`Err` arm has no `break`). -/
def parse_mrt : List MrtRecord → Nat → MrtMap → MrtMap →
    MrtMap × MrtMap × List MrtRecord
  | [], _, mrt_hm, next_mrt_hm => (mrt_hm, next_mrt_hm, [])
  | .ribV4 p mask es :: rest, endOct, mrt_hm, next_mrt_hm =>
    let ip := format_ip p true
    if octet0 ip > endOct then
      (mrt_hm, match_rib_entry es ip mask next_mrt_hm, rest)
    else parse_mrt rest endOct (match_rib_entry es ip mask mrt_hm) next_mrt_hm
  | .ribV6 p mask es :: rest, endOct, mrt_hm, next_mrt_hm =>
    let ip := format_ip p false
    if octet0 ip > endOct then
      (mrt_hm, match_rib_entry es ip mask next_mrt_hm, rest)
    else parse_mrt rest endOct (match_rib_entry es ip mask mrt_hm) next_mrt_hm
  | .other :: rest, endOct, mrt_hm, next_mrt_hm =>
    parse_mrt rest endOct mrt_hm next_mrt_hm
  | .readErr :: rest, endOct, mrt_hm, next_mrt_hm =>
    parse_mrt rest endOct mrt_hm next_mrt_hm

/-- Ordering used by `as_paths_sorted.sort_by(|a, b| a.len().cmp(&b.len()))`. -/
def lenLE (a b : List Nat) : Prop := a.length ≤ b.length

instance : DecidableRel lenLE := fun a b => Nat.decLe a.length b.length

instance : IsTotal (List Nat) lenLE := ⟨fun a b => Nat.le_total a.length b.length⟩

instance : IsTrans (List Nat) lenLE := ⟨fun _ _ _ h h' => Nat.le_trans h h'⟩

/-- The length sort of the path set (the Rust sort is stable over an
unspecified `HashSet` iteration order; any length-sorted permutation is
a faithful model and every proved statement depends only on sortedness
and the underlying set of paths). -/
def sortByLen (l : List (List Nat)) : List (List Nat) := List.insertionSort lenLE l

/-- Inner truncation loop of `find_common_suffix`, iterating over the
index list of the Rust `for i in 1..rev_common_suffix.len()` (the range
is fixed at loop entry; the body breaks right after any truncation).
At the first position where the reversed compared path differs from the
baseline, the baseline is truncated there.  `none` models the
index-out-of-bounds panic of `rev_as_path[i]`. -/
def truncLoop (revCS revP : List Nat) : List Nat → Option (List Nat)
  | [] => some revCS
  | i :: is =>
    if h2 : i < revP.length then
      if revP.get ⟨i, h2⟩ ≠ revCS.getD i 0 then some (revCS.take i)
      else truncLoop revCS revP is
    else none

/-- The truncation loop with its index range `1..revCS.length`. -/
def truncFrom1 (revCS revP : List Nat) : Option (List Nat) :=
  truncLoop revCS revP (List.range' 1 (revCS.length - 1))

/-- Outcome of the per-address body of `find_common_suffix`. -/
inductive SuffixResult where
  | anomalous
  | fatal
  | ok (revCS : List Nat)
deriving DecidableEq, Repr

/-- Per-address loop of `find_common_suffix` over the already sorted
tail: reject the address if a reversed path disagrees with the
baseline's first element, otherwise truncate the baseline at the first
mismatch from position 1 on. -/
def suffixLoop : List Nat → List (List Nat) → SuffixResult
  | revCS, [] => .ok revCS
  | revCS, p :: rest =>
    let revP := p.reverse
    if revCS.head? ≠ revP.head? then .anomalous
    else
      match truncFrom1 revCS revP with
      | none => .fatal
      | some revCS' => suffixLoop revCS' rest

/-- Per-address body of `find_common_suffix`: sort the path set by
length, take the reversed shortest path as the baseline, and fold the
others in.  `fatal` for the empty set models the `as_paths_sorted[0]`
panic. -/
def find_common_suffix_one (paths : List (List Nat)) : SuffixResult :=
  match sortByLen paths with
  | [] => .fatal
  | p :: rest => suffixLoop p.reverse rest

/-- What `find_as_bottleneck` does with one address: nothing for an
anomalous path set; otherwise `pop` the computed suffix, where popping
an empty vector is the `panic!("ERROR: No ASN")`. -/
inductive ResolveOutcome where
  | fatal
  | skipped
  | emit (asn : Nat)
deriving DecidableEq, Repr

/-- Resolution of one address: common-suffix computation followed by
the `as_path.pop()` of `find_as_bottleneck`. -/
def resolve_address (paths : List (List Nat)) : ResolveOutcome :=
  match find_common_suffix_one paths with
  | .fatal => .fatal
  | .anomalous => .skipped
  | .ok revCS =>
    match revCS.getLast? with
    | none => .fatal
    | some a => .emit a

/-- Embedding of `FindBottleneck::find_as_bottleneck` over a batch map:
the per-bin `prefix_asn` mapping, or `none` if any address made the run
panic. -/
def find_as_bottleneck : MrtMap → Option (List (Address × Nat))
  | [] => some []
  | (a, ps) :: rest =>
    match resolve_address ps with
    | .fatal => none
    | .skipped => find_as_bottleneck rest
    | .emit asn => (find_as_bottleneck rest).map (fun out => (a, asn) :: out)

/-- `HashMap::get` on the association-list model. -/
def mapFind? : MrtMap → Address → Option PathSet
  | [], _ => none
  | (k, s) :: rest, a => if k = a then some s else mapFind? rest a

/-- `HashMap::remove` on the association-list model. -/
def mapRemove : MrtMap → Address → MrtMap
  | [], _ => []
  | (k, s) :: rest, a => if k = a then rest else (k, s) :: mapRemove rest a

/-- The unsorted-cache drain of `locate`: for every address of the bin
map that also occurs in the unsorted cache, union the cached paths into
the bin entry and remove the address from the cache. -/
def drainUnsorted (mrt_hm mrt_hm_unsorted : MrtMap) : MrtMap × MrtMap :=
  mrt_hm.foldl
    (fun st e =>
      match mapFind? st.2 e.1 with
      | some us => ((e.1, us.foldl setInsert e.2) :: st.1, mapRemove st.2 e.1)
      | none => ((e.1, e.2) :: st.1, st.2))
    ([], mrt_hm_unsorted)
  |>.map List.reverse id

/-- `let step: u8 = 1 << 4`. -/
def binStep : Nat := 16

/-- The bin starts `(0..u8::max_value()).step_by(step)`, i.e.
`0, 16, …, 240`. -/
def binStarts : List Nat := List.range' 0 16 binStep

/-- `current_start_high_octet.saturating_add(step)` on `u8`. -/
def binEnd (start : Nat) : Nat := min (start + binStep) 255

/-- State threaded through the bin loop of `locate`: the per-file
decoder positions, the carry-over map, the unsorted cache and the
output written so far. -/
structure LocState where
  files : List (List MrtRecord)
  nextHm : MrtMap
  unsorted : MrtMap
  out : List (Address × Nat)
deriving DecidableEq, Repr

/-- The inner `for i in 0..file_decoders_sorted.len()` loop of one bin:
each sorted file is read from its saved position, threading `mrt_hm`
and `next_mrt_hm` through all files and recording the new positions. -/
def parseFilesFold (endOct : Nat) :
    List (List MrtRecord) → MrtMap → MrtMap →
    List (List MrtRecord) × MrtMap × MrtMap
  | [], mrt_hm, next_mrt_hm => ([], mrt_hm, next_mrt_hm)
  | f :: fs, mrt_hm, next_mrt_hm =>
    let r := parse_mrt f endOct mrt_hm next_mrt_hm
    let rec' := parseFilesFold endOct fs r.1 r.2.1
    (r.2.2 :: rec'.1, rec'.2)

/-- One iteration of the bin loop of `locate`: seed the bin map from
the carry-over, read every sorted file up to the bin bound, drain the
unsorted cache, resolve and append to the output.  `none` models a
panic inside the resolver. -/
def runBin (st : LocState) (start : Nat) : Option LocState :=
  let endOct := binEnd start
  let r := parseFilesFold endOct st.files st.nextHm []
  let d := drainUnsorted r.2.1 st.unsorted
  match find_as_bottleneck d.1 with
  | none => none
  | some entries => some ⟨r.1, r.2.2, d.2, st.out ++ entries⟩

/-- Embedding of `FindBottleneck::locate`: load every unsorted file
into the cache with bound `u8::MAX`, run the sixteen bins, then flush
the residue of the cache.  The value is the full sequence of
`(address, asn)` lines written to the output stream, or `none` if the
run panicked. -/
def locate (sortedFiles unsortedFiles : List (List MrtRecord)) :
    Option (List (Address × Nat)) :=
  let uns := unsortedFiles.foldl (fun m f => (parse_mrt f 255 m []).1) []
  let init : LocState := ⟨sortedFiles, [], uns, []⟩
  match binStarts.foldl
      (fun ost start =>
        match ost with
        | none => none
        | some st => runBin st start)
      (some init) with
  | none => none
  | some st =>
    match find_as_bottleneck st.unsorted with
    | none => none
    | some entries => some (st.out ++ entries)

/-- Whether `parse_mrt` would divert this record to the carry-over map:
a RIB record whose reconstructed leading address byte exceeds the bin
bound.  `other` records and read errors never do. -/
def isOutOfRange (endOct : Nat) : MrtRecord → Bool
  | .ribV4 p _ _ => endOct < octet0 (format_ip p true)
  | .ribV6 p _ _ => endOct < octet0 (format_ip p false)
  | .other => false
  | .readErr => false

/-- Merging one consumed record into a map, as `parse_mrt` does it:
RIB records go through `match_rib_entry`, everything else is a no-op. -/
def mergeRecord (m : MrtMap) : MrtRecord → MrtMap
  | .ribV4 p mask es => match_rib_entry es (format_ip p true) mask m
  | .ribV6 p mask es => match_rib_entry es (format_ip p false) mask m
  | .other => m
  | .readErr => m

/-- Reference characterisation of one `parse_mrt` pass, written from
the spec's reading rule: consume records while they are in range,
merging them into the bin map; the first out-of-range record goes to
the carry-over map and the rest of the stream is left unread. -/
def parse_mrt_batchSpec (stream : List MrtRecord) (endOct : Nat)
    (mrt_hm next_mrt_hm : MrtMap) : MrtMap × MrtMap × List MrtRecord :=
  let consumed := stream.takeWhile (fun r => !isOutOfRange endOct r)
  let rest := stream.dropWhile (fun r => !isOutOfRange endOct r)
  (consumed.foldl mergeRecord mrt_hm,
    match rest with
    | [] => next_mrt_hm
    | r :: _ => mergeRecord next_mrt_hm r,
    rest.tail)

/-- Leading bytes of the RIB records of a file, in stream order. -/
def ribLeadBytes (f : List MrtRecord) : List Nat :=
  f.filterMap
    (fun r =>
      match r with
      | .ribV4 p _ _ => some (octet0 (format_ip p true))
      | .ribV6 p _ _ => some (octet0 (format_ip p false))
      | .other => none
      | .readErr => none)

/-- Adjacent-pairs check that a byte sequence is non-decreasing. -/
def nonDecreasingB : List Nat → Bool
  | a :: b :: rest => a ≤ b && nonDecreasingB (b :: rest)
  | _ => true

/-- The sorted-file assumption: RIB records non-decreasing in the
leading address byte. -/
abbrev fileSorted (f : List MrtRecord) : Prop :=
  nonDecreasingB (ribLeadBytes f) = true

/-- Longest common prefix of two lists. -/
def lcp2 : List Nat → List Nat → List Nat
  | a :: as', b :: bs' => if a = b then a :: lcp2 as' bs' else []
  | _, _ => []

/-! ## Concrete inputs used by several claims -/

/-- A sorted file (leading bytes 200, 200, non-decreasing) holding two
records for one address whose leading byte lies many bins beyond the
first: the carry-over mechanism hands each record to a different bin. -/
def gapFile : List MrtRecord :=
  [.ribV4 [200] 8 [some [5, 1]], .ribV4 [200] 8 [some [6, 1]]]

/-- The address `200.0.0.0/8` of both records of `gapFile`. -/
def gapAddr : Address := ⟨.v4 200 0 0 0, 8⟩

/-! ## Helper lemmas about `lcp2` -/

theorem lcp2_pref_left : ∀ a b : List Nat, lcp2 a b <+: a
  | [], _ => by simp [lcp2]
  | _ :: _, [] => by
    simp only [lcp2]
    exact ⟨_, rfl⟩
  | x :: xs, y :: ys => by
    by_cases h : x = y
    · subst h
      simp only [lcp2, if_pos rfl]
      obtain ⟨t, ht⟩ := lcp2_pref_left xs ys
      exact ⟨t, by simp [ht]⟩
    · simp only [lcp2, if_neg h]
      exact ⟨_, rfl⟩

theorem lcp2_pref_right : ∀ a b : List Nat, lcp2 a b <+: b
  | [], b => by
    simp only [lcp2]
    exact ⟨b, rfl⟩
  | _ :: _, [] => by
    simp only [lcp2]
    exact ⟨_, rfl⟩
  | x :: xs, y :: ys => by
    by_cases h : x = y
    · subst h
      simp only [lcp2, if_pos rfl]
      obtain ⟨t, ht⟩ := lcp2_pref_right xs ys
      exact ⟨t, by simp [ht]⟩
    · simp only [lcp2, if_neg h]
      exact ⟨_, rfl⟩

theorem lcp2_greatest : ∀ c a b : List Nat, c <+: a → c <+: b → c <+: lcp2 a b
  | [], a, b, _, _ => ⟨lcp2 a b, rfl⟩
  | x :: c', a, b, ha, hb => by
    obtain ⟨t, ht⟩ := ha
    obtain ⟨u, hu⟩ := hb
    subst ht
    subst hu
    simp only [List.cons_append, lcp2, if_pos rfl]
    obtain ⟨v, hv⟩ := lcp2_greatest c' (c' ++ t) (c' ++ u) ⟨t, rfl⟩ ⟨u, rfl⟩
    exact ⟨v, by simp [hv]⟩

theorem lcp2_head? : ∀ a b : List Nat, a.head? = b.head? →
    (lcp2 a b).head? = a.head?
  | [], b, _ => by simp [lcp2]
  | x :: xs, [], h => by simp at h
  | x :: xs, y :: ys, h => by
    simp only [List.head?_cons, Option.some.injEq] at h
    subst h
    simp [lcp2]

theorem lcp2_take_left : ∀ (n : Nat) (b : List Nat), lcp2 (b.take n) b = b.take n
  | 0, b => by simp [lcp2]
  | n + 1, [] => by simp [lcp2]
  | n + 1, x :: xs => by
    simp only [List.take_succ_cons, lcp2, if_pos rfl, if_true, eq_self_iff_true]
    rw [lcp2_take_left n xs]

theorem lcp2_eq_take_of_mismatch :
    ∀ (i : Nat) (a b : List Nat) (hia : i < a.length) (hib : i < b.length),
      a.take i = b.take i → a.get ⟨i, hia⟩ ≠ b.get ⟨i, hib⟩ →
      lcp2 a b = a.take i
  | 0, [], _, hia, _, _, _ => by simp at hia
  | 0, _ :: _, [], _, hib, _, _ => by simp at hib
  | 0, x :: xs, y :: ys, _, _, _, hget => by
    simp only [List.get] at hget
    simp [lcp2, hget]
  | i + 1, [], _, hia, _, _, _ => by simp at hia
  | i + 1, _ :: _, [], _, hib, _, _ => by simp at hib
  | i + 1, x :: xs, y :: ys, hia, hib, htake, hget => by
    simp only [List.take_succ_cons, List.cons.injEq] at htake
    obtain ⟨rfl, htail⟩ := htake
    simp only [List.get] at hget
    simp only [List.take_succ_cons, lcp2, if_pos rfl, if_true, eq_self_iff_true]
    rw [lcp2_eq_take_of_mismatch i xs ys (Nat.lt_of_succ_lt_succ hia)
      (Nat.lt_of_succ_lt_succ hib) htail hget]

/-! ## Helper lemmas about lists -/

theorem getD_eq_get_of_lt (l : List Nat) (i : Nat) (h : i < l.length) :
    l.getD i 0 = l.get ⟨i, h⟩ := by
  rw [List.getD_eq_getElem?_getD, List.getElem?_eq_getElem h]
  simp

theorem head?_take_pos : ∀ (l : List Nat) (i : Nat), 0 < i →
    (l.take i).head? = l.head?
  | [], _, _ => by simp
  | x :: xs, 0, h => by simp at h
  | x :: xs, i + 1, _ => by simp

theorem take_one_of_head? (l : List Nat) (o : Nat) (h : l.head? = some o) :
    l.take 1 = [o] := by
  cases l with
  | nil => simp at h
  | cons x xs =>
    simp only [List.head?_cons, Option.some.injEq] at h
    subst h
    simp

/-! ## Helper lemmas about `truncLoop` -/

theorem truncLoop_eq_lcp2 :
    ∀ (n i : Nat) (revCS revP : List Nat),
      i + n = revCS.length → revCS.length ≤ revP.length →
      revCS.take i = revP.take i →
      truncLoop revCS revP (List.range' i n) = some (lcp2 revCS revP) := by
  intro n
  induction n with
  | zero =>
    intro i revCS revP hlen _ htake
    have hi : i = revCS.length := by omega
    subst hi
    rw [List.take_length] at htake
    simp only [List.range', truncLoop, Option.some.injEq]
    rw [htake, lcp2_take_left]
  | succ n ih =>
    intro i revCS revP hlen hle htake
    have hia : i < revCS.length := by omega
    have hib : i < revP.length := by omega
    rw [List.range'_succ]
    simp only [truncLoop, dif_pos hib]
    rw [getD_eq_get_of_lt revCS i hia]
    by_cases hget : revP.get ⟨i, hib⟩ = revCS.get ⟨i, hia⟩
    · simp only [hget, ne_eq, not_true_eq_false, if_neg, ite_false]
      have htake' : revCS.take (i + 1) = revP.take (i + 1) := by
        rw [List.take_succ, List.take_succ, htake]
        rw [List.getElem?_eq_getElem hia, List.getElem?_eq_getElem hib]
        simp only [List.get_eq_getElem] at hget
        rw [hget]
      exact ih (i + 1) revCS revP (by omega) hle htake'
    · simp only [ne_eq, hget, not_false_eq_true, if_pos, ite_true]
      rw [lcp2_eq_take_of_mismatch i revCS revP hia hib htake
        (fun h => hget (h.symm))]

theorem truncFrom1_eq_lcp2 (revCS revP : List Nat) (o : Nat)
    (hcs : revCS.head? = some o) (hp : revP.head? = some o)
    (hle : revCS.length ≤ revP.length) :
    truncFrom1 revCS revP = some (lcp2 revCS revP) := by
  have hne : revCS ≠ [] := by
    intro h
    rw [h] at hcs
    simp at hcs
  have hpos : 0 < revCS.length := List.length_pos.mpr hne
  unfold truncFrom1
  exact truncLoop_eq_lcp2 (revCS.length - 1) 1 revCS revP (by omega) hle
    (by rw [take_one_of_head? revCS o hcs, take_one_of_head? revP o hp])

theorem truncLoop_ne_none :
    ∀ (idxs : List Nat) (revCS revP : List Nat),
      (∀ i ∈ idxs, i < revP.length) →
      truncLoop revCS revP idxs ≠ none := by
  intro idxs
  induction idxs with
  | nil => intro revCS revP _; simp [truncLoop]
  | cons i is ih =>
    intro revCS revP hbound
    have hib : i < revP.length := hbound i (by simp)
    simp only [truncLoop, dif_pos hib]
    split
    · simp
    · exact ih revCS revP (fun j hj => hbound j (by simp [hj]))

theorem truncLoop_length_le :
    ∀ (idxs : List Nat) (revCS revP cs' : List Nat),
      truncLoop revCS revP idxs = some cs' → cs'.length ≤ revCS.length := by
  intro idxs
  induction idxs with
  | nil =>
    intro revCS revP cs' h
    simp only [truncLoop, Option.some.injEq] at h
    rw [h]
  | cons i is ih =>
    intro revCS revP cs' h
    by_cases hib : i < revP.length
    · simp only [truncLoop, dif_pos hib] at h
      split at h
      · simp only [Option.some.injEq] at h
        subst h
        rw [List.length_take]
        exact Nat.min_le_right _ _
      · exact ih revCS revP cs' h
    · simp [truncLoop, dif_neg hib] at h

theorem truncLoop_head? :
    ∀ (idxs : List Nat) (revCS revP cs' : List Nat),
      (∀ i ∈ idxs, 0 < i) →
      truncLoop revCS revP idxs = some cs' → cs'.head? = revCS.head? := by
  intro idxs
  induction idxs with
  | nil =>
    intro revCS revP cs' _ h
    simp only [truncLoop, Option.some.injEq] at h
    rw [← h]
  | cons i is ih =>
    intro revCS revP cs' hpos h
    by_cases hib : i < revP.length
    · simp only [truncLoop, dif_pos hib] at h
      split at h
      · simp only [Option.some.injEq] at h
        subst h
        exact head?_take_pos revCS i (hpos i (by simp))
      · exact ih revCS revP cs' (fun j hj => hpos j (by simp [hj])) h
    · simp [truncLoop, dif_neg hib] at h

/-! ## Helper lemmas about `suffixLoop` and the length sort -/

theorem mem_range'_one_lt {i s n : Nat} (h : i ∈ List.range' s n) : i < s + n := by
  rw [List.mem_range'] at h
  obtain ⟨k, hk, rfl⟩ := h
  omega

theorem mem_range'_one_le {i s n : Nat} (h : i ∈ List.range' s n) : s ≤ i := by
  rw [List.mem_range'] at h
  obtain ⟨k, _, rfl⟩ := h
  omega

theorem suffixLoop_ne_fatal :
    ∀ (rest : List (List Nat)) (revCS : List Nat),
      (∀ q ∈ rest, revCS.length ≤ q.length) →
      suffixLoop revCS rest ≠ .fatal := by
  intro rest
  induction rest with
  | nil => intro revCS _; simp [suffixLoop]
  | cons p rest' ih =>
    intro revCS hlen
    simp only [suffixLoop]
    split
    · simp
    · have hle : revCS.length ≤ p.reverse.length := by
        rw [List.length_reverse]
        exact hlen p (by simp)
      have hbound : ∀ i ∈ List.range' 1 (revCS.length - 1), i < p.reverse.length :=
        fun i hi => Nat.lt_of_lt_of_le (by
          have := mem_range'_one_lt hi
          have := mem_range'_one_le hi
          omega) hle
      cases htr : truncFrom1 revCS p.reverse with
      | none => exact absurd htr (truncLoop_ne_none _ revCS p.reverse hbound)
      | some cs' =>
        simp only []
        exact ih cs' (fun q hq =>
          Nat.le_trans (truncLoop_length_le _ revCS p.reverse cs' htr)
            (hlen q (by simp [hq])))

theorem suffixLoop_ok_heads :
    ∀ (rest : List (List Nat)) (revCS cs : List Nat),
      suffixLoop revCS rest = .ok cs →
      ∀ q ∈ rest, q.reverse.head? = revCS.head? := by
  intro rest
  induction rest with
  | nil => intro revCS cs _ q hq; simp at hq
  | cons p rest' ih =>
    intro revCS cs h q hq
    simp only [suffixLoop] at h
    split at h
    · exact absurd h (by simp)
    · rename_i hhead
      simp only [ne_eq, not_not] at hhead
      cases htr : truncFrom1 revCS p.reverse with
      | none => rw [htr] at h; exact absurd h (by simp)
      | some cs' =>
        rw [htr] at h
        have hcs' : cs'.head? = revCS.head? :=
          truncLoop_head? _ revCS p.reverse cs'
            (fun i hi => Nat.lt_of_lt_of_le (by omega) (mem_range'_one_le hi)) htr
        rcases List.mem_cons.mp hq with hq | hq
        · subst hq
          exact hhead.symm
        · rw [ih cs' cs h q hq, hcs']

theorem suffixLoop_fold :
    ∀ (rest : List (List Nat)) (revCS : List Nat) (o : Nat),
      revCS.head? = some o →
      (∀ q ∈ rest, q.reverse.head? = some o) →
      (∀ q ∈ rest, revCS.length ≤ q.length) →
      suffixLoop revCS rest =
        .ok (rest.foldl (fun cs q => lcp2 cs q.reverse) revCS) := by
  intro rest
  induction rest with
  | nil => intro revCS o _ _ _; simp [suffixLoop]
  | cons p rest' ih =>
    intro revCS o hh hrest hlen
    have hph : p.reverse.head? = some o := hrest p (by simp)
    have hle : revCS.length ≤ p.reverse.length := by
      rw [List.length_reverse]
      exact hlen p (by simp)
    have htr : truncFrom1 revCS p.reverse = some (lcp2 revCS p.reverse) :=
      truncFrom1_eq_lcp2 revCS p.reverse o hh hph hle
    simp only [suffixLoop, hh, hph, ne_eq, not_true_eq_false, if_false, htr,
      ite_false, List.foldl_cons]
    exact ih (lcp2 revCS p.reverse) o
      (by rw [lcp2_head? revCS p.reverse (by rw [hh, hph]), hh])
      (fun q hq => hrest q (by simp [hq]))
      (fun q hq =>
        Nat.le_trans (List.IsPrefix.length_le (lcp2_pref_left revCS p.reverse))
          (hlen q (by simp [hq])))

theorem foldl_lcp2_pref_acc :
    ∀ (rest : List (List Nat)) (acc : List Nat),
      (rest.foldl (fun cs q => lcp2 cs q.reverse) acc) <+: acc := by
  intro rest
  induction rest with
  | nil => intro acc; exact ⟨[], List.append_nil acc⟩
  | cons p rest' ih =>
    intro acc
    exact List.IsPrefix.trans (ih (lcp2 acc p.reverse))
      (lcp2_pref_left acc p.reverse)

theorem foldl_lcp2_pref_mem :
    ∀ (rest : List (List Nat)) (acc q : List Nat), q ∈ rest →
      (rest.foldl (fun cs r => lcp2 cs r.reverse) acc) <+: q.reverse := by
  intro rest
  induction rest with
  | nil => intro acc q hq; simp at hq
  | cons p rest' ih =>
    intro acc q hq
    rcases List.mem_cons.mp hq with hq | hq
    · subst hq
      exact List.IsPrefix.trans (foldl_lcp2_pref_acc rest' (lcp2 acc q.reverse))
        (lcp2_pref_right acc q.reverse)
    · exact ih (lcp2 acc p.reverse) q hq

theorem foldl_lcp2_greatest :
    ∀ (rest : List (List Nat)) (acc s : List Nat),
      s <+: acc → (∀ q ∈ rest, s <+: q.reverse) →
      s <+: rest.foldl (fun cs q => lcp2 cs q.reverse) acc := by
  intro rest
  induction rest with
  | nil => intro acc s hacc _; exact hacc
  | cons p rest' ih =>
    intro acc s hacc hall
    exact ih (lcp2 acc p.reverse) s
      (lcp2_greatest s acc p.reverse hacc (hall p (by simp)))
      (fun q hq => hall q (by simp [hq]))

theorem foldl_lcp2_head? :
    ∀ (rest : List (List Nat)) (acc : List Nat) (o : Nat),
      acc.head? = some o → (∀ q ∈ rest, q.reverse.head? = some o) →
      (rest.foldl (fun cs q => lcp2 cs q.reverse) acc).head? = some o := by
  intro rest
  induction rest with
  | nil => intro acc o h _; exact h
  | cons p rest' ih =>
    intro acc o h hall
    exact ih (lcp2 acc p.reverse) o
      (by rw [lcp2_head? acc p.reverse (by rw [h, hall p (by simp)]), h])
      (fun q hq => hall q (by simp [hq]))

theorem sortByLen_perm (paths : List (List Nat)) :
    List.Perm (sortByLen paths) paths :=
  List.perm_insertionSort lenLE paths

theorem sortByLen_sorted (paths : List (List Nat)) :
    List.Sorted lenLE (sortByLen paths) :=
  List.sorted_insertionSort lenLE paths

theorem sortByLen_cons_of_ne_nil (paths : List (List Nat)) (h : paths ≠ []) :
    ∃ p₀ rest, sortByLen paths = p₀ :: rest := by
  cases hL : sortByLen paths with
  | nil =>
    exfalso
    apply h
    have := (sortByLen_perm paths).length_eq
    rw [hL] at this
    exact List.length_eq_zero.mp this.symm
  | cons p₀ rest => exact ⟨p₀, rest, rfl⟩

theorem find_common_suffix_one_ne_fatal (paths : List (List Nat))
    (h : paths ≠ []) : find_common_suffix_one paths ≠ .fatal := by
  obtain ⟨p₀, rest, hL⟩ := sortByLen_cons_of_ne_nil paths h
  unfold find_common_suffix_one
  rw [hL]
  apply suffixLoop_ne_fatal
  intro q hq
  rw [List.length_reverse]
  have hs := sortByLen_sorted paths
  rw [hL] at hs
  exact List.rel_of_sorted_cons hs q hq

theorem find_as_bottleneck_skip (ps : List (List Nat))
    (hskip : resolve_address ps = .skipped) :
    ∀ (m₁ m₂ : MrtMap) (a : Address),
      find_as_bottleneck (m₁ ++ (a, ps) :: m₂) = find_as_bottleneck (m₁ ++ m₂) := by
  intro m₁
  induction m₁ with
  | nil =>
    intro m₂ a
    simp [find_as_bottleneck, hskip]
  | cons e m₁' ih =>
    intro m₂ a
    obtain ⟨k, s⟩ := e
    cases hres : resolve_address s <;>
      simp [find_as_bottleneck, hres, ih m₂ a]

theorem setInsert_idem (s : PathSet) (p : List Nat) :
    setInsert (setInsert s p) p = setInsert s p := by
  unfold setInsert
  by_cases h : p ∈ s
  · simp [h]
  · have hin : p ∈ s ++ [p] := by simp
    simp [h, hin]

theorem mapInsertPath_idem : ∀ (m : MrtMap) (a : Address) (p : List Nat),
    mapInsertPath (mapInsertPath m a p) a p = mapInsertPath m a p
  | [], a, p => by simp [mapInsertPath, setInsert]
  | (k, s) :: rest, a, p => by
    by_cases h : k = a
    · subst h
      simp [mapInsertPath, setInsert_idem]
    · simp [mapInsertPath, h, mapInsertPath_idem rest a p]

theorem octet0_format_ip_le (p : List Nat) (v4 : Bool) :
    octet0 (format_ip p v4) ≤ 255 := by
  have h256 : ∀ n : Nat, n % 256 < 256 := fun n => Nat.mod_lt n (by omega)
  cases v4 with
  | true =>
    have := h256 ((p ++ List.replicate 17 0).getD 0 0)
    simp only [format_ip, if_true, octet0]
    omega
  | false =>
    have hb0 := h256 ((p ++ List.replicate 17 0).getD 0 0)
    have hb1 := h256 ((p ++ List.replicate 17 0).getD 1 0)
    simp only [format_ip, Bool.false_eq_true, if_false, octet0, u16be]
    rw [Nat.mul_comm, Nat.mul_add_div (by omega)]
    rw [Nat.div_eq_of_lt hb1]
    omega

theorem parse_mrt_eq_spec :
    ∀ (stream : List MrtRecord) (endOct : Nat) (mrt_hm next_mrt_hm : MrtMap),
      parse_mrt stream endOct mrt_hm next_mrt_hm =
        parse_mrt_batchSpec stream endOct mrt_hm next_mrt_hm := by
  intro stream
  induction stream with
  | nil => intro endOct hm nhm; simp [parse_mrt, parse_mrt_batchSpec]
  | cons r rest ih =>
    intro endOct hm nhm
    cases r with
    | ribV4 p mask es =>
      by_cases h : endOct < octet0 (format_ip p true)
      · have hb : isOutOfRange endOct (.ribV4 p mask es) = true := by
          simp [isOutOfRange, h]
        simp [parse_mrt, parse_mrt_batchSpec, gt_iff_lt, h, hb, mergeRecord]
      · have hb : isOutOfRange endOct (.ribV4 p mask es) = false := by
          simp [isOutOfRange, h]
        simp only [parse_mrt, gt_iff_lt, if_neg h, parse_mrt_batchSpec,
          List.takeWhile_cons, List.dropWhile_cons, hb, Bool.not_false,
          ite_true, List.foldl_cons, mergeRecord]
        exact ih endOct (match_rib_entry es (format_ip p true) mask hm) nhm
    | ribV6 p mask es =>
      by_cases h : endOct < octet0 (format_ip p false)
      · have hb : isOutOfRange endOct (.ribV6 p mask es) = true := by
          simp [isOutOfRange, h]
        simp [parse_mrt, parse_mrt_batchSpec, gt_iff_lt, h, hb, mergeRecord]
      · have hb : isOutOfRange endOct (.ribV6 p mask es) = false := by
          simp [isOutOfRange, h]
        simp only [parse_mrt, gt_iff_lt, if_neg h, parse_mrt_batchSpec,
          List.takeWhile_cons, List.dropWhile_cons, hb, Bool.not_false,
          ite_true, List.foldl_cons, mergeRecord]
        exact ih endOct (match_rib_entry es (format_ip p false) mask hm) nhm
    | other =>
      have hb : isOutOfRange endOct .other = false := rfl
      simp only [parse_mrt, parse_mrt_batchSpec, List.takeWhile_cons,
        List.dropWhile_cons, hb, Bool.not_false, ite_true, List.foldl_cons,
        mergeRecord]
      exact ih endOct hm nhm
    | readErr =>
      have hb : isOutOfRange endOct .readErr = false := rfl
      simp only [parse_mrt, parse_mrt_batchSpec, List.takeWhile_cons,
        List.dropWhile_cons, hb, Bool.not_false, ite_true, List.foldl_cons,
        mergeRecord]
      exact ih endOct hm nhm

/-! ## Claim theorems -/

/-- C6 (code bug): the spec demands byte-to-octet-faithful IPv6
reconstruction, but `format_ip` skips input byte 6 (its segment list
uses bytes 0-5 and then 7-16).  At the failing input
`[32, 1, 3, 24, 0, 0, 255]` the code returns the same address as for
`[32, 1, 3, 24]`, collapsing two prefixes that differ in byte 6, while
the octet-faithful reconstruction `format_ip_bytewise` distinguishes
them (segment 3 is `0xff00`, not `0`). -/
theorem c6_format_ip_drops_byte_six :
    format_ip [32, 1, 3, 24, 0, 0, 255] false = format_ip [32, 1, 3, 24] false ∧
    format_ip [32, 1, 3, 24, 0, 0, 255] false = .v6 8193 792 0 0 0 0 0 0 ∧
    format_ip_bytewise [32, 1, 3, 24, 0, 0, 255] false = .v6 8193 792 0 65280 0 0 0 0 ∧
    format_ip_bytewise [32, 1, 3, 24, 0, 0, 255] false ≠
      format_ip_bytewise [32, 1, 3, 24] false := by
  refine ⟨by decide, by decide, by decide, by decide⟩

/-- C7 (code bug): the source logs "Skipping file." on a decoder
error, but its `Err` arm has no `break`: the loop retries the reader,
so the record after the error is still parsed into the batch map
instead of the rest of the file being skipped. -/
theorem c7_read_error_does_not_stop_file :
    parse_mrt [.readErr, .ribV4 [1] 24 [some [5, 6]]] 255 [] [] =
      ([(⟨.v4 1 0 0 0, 24⟩, [[5, 6]])], [], []) := by
  decide

/-- C2 counterexample: with bin start 0 and width 16 the bin bound is
`binEnd 0 = 16`, and a record with leading byte 16 — outside the
half-open range `[0, 16)` — is still merged into the bin's batch map,
because the source only diverts records whose byte strictly exceeds
the bound. -/
theorem c2_boundary_byte_is_merged :
    (parse_mrt [.ribV4 [16] 8 [some [5]]] (binEnd 0) [] []).1 =
      [(⟨.v4 16 0 0 0, 8⟩, [[5]])] ∧
    ¬ (16 : Nat) < 0 + binStep := by
  refine ⟨by decide, by decide⟩

/-- C3 (code bug): `gapFile` is non-decreasing in the leading address
byte, yet `locate` writes its single address twice — the first record
is carried into bin `[16, 32]` and the second into bin `[32, 48]`, so
the same `Address` is handed to the resolver in two different bins,
violating the at-most-once invariant. -/
theorem c3_address_resolved_twice :
    fileSorted gapFile ∧
    locate [gapFile] [] = some [(gapAddr, 5), (gapAddr, 6)] ∧
    (((locate [gapFile] []).getD []).map Prod.fst).count gapAddr = 2 := by
  refine ⟨by decide, by decide, by decide⟩

/-- C8 (code bug): the same records produce different result mappings
depending on whether they arrive in a sorted or an unsorted file: the
sorted run resolves the address twice from singleton path sets (ASNs 5
and 6), the unsorted run resolves it once from the full path set
(ASN 1), refuting bin-assignment path independence. -/
theorem c8_sorted_unsorted_runs_differ :
    fileSorted gapFile ∧
    locate [gapFile] [] = some [(gapAddr, 5), (gapAddr, 6)] ∧
    locate [] [gapFile] = some [(gapAddr, 1)] ∧
    locate [gapFile] [] ≠ locate [] [gapFile] := by
  refine ⟨by decide, by decide, by decide, by decide⟩

/-- C5 counterexample: an address whose shortest path is empty but
which has a second, non-empty path is not a panic: the baseline's
first element is `None`, the other path's is `Some`, so the origin
check fires and the address is silently skipped as anomalous. -/
theorem c5_empty_shortest_path_is_skipped :
    resolve_address [[], [5]] = .skipped ∧
    find_as_bottleneck [(gapAddr, [[], [5]])] = some [] := by
  refine ⟨by decide, by decide⟩

/-- C5 amended: resolution panics on an empty computed suffix exactly
when the path set is the singleton containing the empty path; when the
shortest path is empty but a non-empty path coexists, the address is
instead skipped as anomalous (no panic, no emitted entry). -/
theorem c5_amended_singleton_empty_path_is_fatal :
    resolve_address [[]] = .fatal ∧
    (∀ p : List Nat, p ≠ [] → resolve_address [[], p] = .skipped) := by
  refine ⟨by decide, ?_⟩
  intro p hp
  cases p with
  | nil => exact absurd rfl hp
  | cons a as =>
    simp only [resolve_address, find_common_suffix_one, sortByLen,
      List.insertionSort, List.orderedInsert, lenLE, suffixLoop]
    cases h : as.getLast? <;> simp [h, suffixLoop]

/-- C5 amended, witness at `p = [5]`. -/
theorem c5_amended_witness :
    ([5] : List Nat) ≠ [] ∧ resolve_address [[], [5]] = .skipped :=
  ⟨by decide, c5_amended_singleton_empty_path_is_fatal.2 [5] (by decide)⟩

/-- C10: for a non-empty path set the per-address resolution of
`find_common_suffix` never hits an out-of-bounds index: the baseline
`as_paths_sorted[0]` exists, and because the paths are sorted by
ascending length and truncation only shrinks the baseline, every index
`1 ≤ i < len(baseline)` is valid into each reversed compared path.
`fatal` is the model of either indexing panic. -/
theorem c10_no_index_panic (paths : List (List Nat)) (h : paths ≠ []) :
    find_common_suffix_one paths ≠ .fatal :=
  find_common_suffix_one_ne_fatal paths h

/-- C10 witness at the two-path set `[[1], [2, 3]]`. -/
theorem c10_no_index_panic_witness :
    ([[1], [2, 3]] : List (List Nat)) ≠ [] ∧
      find_common_suffix_one [[1], [2, 3]] ≠ .fatal :=
  ⟨by decide, c10_no_index_panic [[1], [2, 3]] (by decide)⟩

/-- C4: if two paths of one address disagree on the origin AS (the
first element of the reversed paths), the address is skipped as
anomalous — it contributes no output entry, no error is raised, and
every other address of the batch map is processed exactly as if the
anomalous entry were absent. -/
theorem c4_anomalous_address_excluded (paths : List (List Nat))
    (p q : List Nat) (hp : p ∈ paths) (hq : q ∈ paths)
    (hne : p.reverse.head? ≠ q.reverse.head?) :
    resolve_address paths = .skipped ∧
    ∀ (a : Address) (m₁ m₂ : MrtMap),
      find_as_bottleneck (m₁ ++ (a, paths) :: m₂) =
        find_as_bottleneck (m₁ ++ m₂) := by
  have hnil : paths ≠ [] := fun hn => by simp [hn] at hp
  obtain ⟨p₀, rest, hL⟩ := sortByLen_cons_of_ne_nil paths hnil
  have hanom : find_common_suffix_one paths = .anomalous := by
    cases hres : find_common_suffix_one paths with
    | anomalous => rfl
    | fatal => exact absurd hres (find_common_suffix_one_ne_fatal paths hnil)
    | ok cs =>
      exfalso
      unfold find_common_suffix_one at hres
      rw [hL] at hres
      have hheads := suffixLoop_ok_heads rest p₀.reverse cs hres
      have hmem : ∀ x, x ∈ paths → x ∈ p₀ :: rest := by
        intro x hx
        have hx' := (sortByLen_perm paths).mem_iff.mpr hx
        rw [hL] at hx'
        exact hx'
      have hall : ∀ x, x ∈ paths → x.reverse.head? = p₀.reverse.head? := by
        intro x hx
        rcases List.mem_cons.mp (hmem x hx) with h | h
        · rw [h]
        · exact hheads x h
      exact hne ((hall p hp).trans (hall q hq).symm)
  have hskip : resolve_address paths = .skipped := by
    simp [resolve_address, hanom]
  exact ⟨hskip, fun a m₁ m₂ => find_as_bottleneck_skip paths hskip m₁ m₂ a⟩

/-- C4 witness: the two-path set `[[1], [2]]` with disagreeing origins,
inside a singleton batch map. -/
theorem c4_anomalous_address_excluded_witness :
    resolve_address [[1], [2]] = .skipped ∧
      find_as_bottleneck ([] ++ (gapAddr, [[1], [2]]) :: []) =
        find_as_bottleneck ([] ++ []) :=
  ⟨(c4_anomalous_address_excluded [[1], [2]] [1] [2] (by decide) (by decide)
      (by decide)).1,
    (c4_anomalous_address_excluded [[1], [2]] [1] [2] (by decide) (by decide)
      (by decide)).2 gapAddr [] []⟩

/-- C1: for a non-empty path set whose paths all agree on the origin
AS (the first element of each reversed path), the resolution emits one
ASN, namely the final element of the computed origin-first baseline
`revCS`; `revCS.reverse` is a common suffix of every path, it is the
longest common suffix, the emitted ASN is a member of every path, and
for a single-path set it is that path's first (nearest-hop) element. -/
theorem c1_bottleneck_of_common_suffix (paths : List (List Nat)) (o : Nat)
    (hne : paths ≠ []) (ho : ∀ p ∈ paths, p.reverse.head? = some o) :
    ∃ revCS asn,
      find_common_suffix_one paths = .ok revCS ∧
      resolve_address paths = .emit asn ∧
      revCS.getLast? = some asn ∧
      (∀ p ∈ paths, revCS.reverse <:+ p) ∧
      (∀ s, (∀ p ∈ paths, s <:+ p) → s.length ≤ revCS.length) ∧
      (∀ p ∈ paths, asn ∈ p) ∧
      (∀ p, paths = [p] → p.head? = some asn) := by
  obtain ⟨p₀, rest, hL⟩ := sortByLen_cons_of_ne_nil paths hne
  have hmem : ∀ x, x ∈ p₀ :: rest ↔ x ∈ paths := by
    intro x
    rw [← hL]
    exact (sortByLen_perm paths).mem_iff
  have hp₀ : p₀ ∈ paths := (hmem p₀).mp (by simp)
  have hsorted := sortByLen_sorted paths
  rw [hL] at hsorted
  have hlen : ∀ q ∈ rest, p₀.reverse.length ≤ q.length := by
    intro q hq
    rw [List.length_reverse]
    exact List.rel_of_sorted_cons hsorted q hq
  have hh : p₀.reverse.head? = some o := ho p₀ hp₀
  have hrest : ∀ q ∈ rest, q.reverse.head? = some o := fun q hq =>
    ho q ((hmem q).mp (List.mem_cons_of_mem p₀ hq))
  set cs := rest.foldl (fun c q' => lcp2 c q'.reverse) p₀.reverse with hcs
  have hone : find_common_suffix_one paths = .ok cs := by
    unfold find_common_suffix_one
    rw [hL]
    exact suffixLoop_fold rest p₀.reverse o hh hrest hlen
  have hhead : cs.head? = some o := foldl_lcp2_head? rest p₀.reverse o hh hrest
  have hcs_pref : ∀ p ∈ paths, cs <+: p.reverse := by
    intro p hp
    rcases List.mem_cons.mp ((hmem p).mpr hp) with h | h
    · rw [h]
      exact foldl_lcp2_pref_acc rest p₀.reverse
    · exact foldl_lcp2_pref_mem rest p₀.reverse p h
  obtain ⟨asn, hasn⟩ : ∃ a, cs.getLast? = some a := by
    cases h : cs.getLast? with
    | none =>
      rw [List.getLast?_eq_none_iff] at h
      rw [h] at hhead
      simp at hhead
    | some a => exact ⟨a, rfl⟩
  have hmax : ∀ s, (∀ p ∈ paths, s <:+ p) → s.length ≤ cs.length := by
    intro s hs
    have hsrev : ∀ p, p ∈ paths → s.reverse <+: p.reverse := by
      intro p hp
      obtain ⟨u, hu⟩ := hs p hp
      exact ⟨u.reverse, by rw [← List.reverse_append, hu]⟩
    have : s.reverse <+: cs :=
      foldl_lcp2_greatest rest p₀.reverse s.reverse (hsrev p₀ hp₀)
        (fun q hq => hsrev q ((hmem q).mp (List.mem_cons_of_mem p₀ hq)))
    have := List.IsPrefix.length_le this
    rwa [List.length_reverse] at this
  refine ⟨cs, asn, hone, ?_, hasn, ?_, hmax, ?_, ?_⟩
  · simp [resolve_address, hone, hasn]
  · intro p hp
    obtain ⟨t, ht⟩ := hcs_pref p hp
    exact ⟨t.reverse, by rw [← List.reverse_append, ht, List.reverse_reverse]⟩
  · intro p hp
    have hmemcs : asn ∈ cs := List.mem_of_getLast?_eq_some hasn
    have : asn ∈ p.reverse := List.IsPrefix.subset (hcs_pref p hp) hmemcs
    exact List.mem_reverse.mp this
  · intro p hpaths
    subst hpaths
    have hp : p ∈ [p] := by simp
    have h1 : cs <+: p.reverse := hcs_pref p hp
    have h2 : p.length ≤ cs.length := by
      apply hmax
      intro p' hp'
      rw [List.mem_singleton.mp hp']
    have hlenEq : cs.length = p.reverse.length := by
      have h3 := List.IsPrefix.length_le h1
      rw [List.length_reverse] at h3 ⊢
      omega
    have : cs = p.reverse := List.IsPrefix.eq_of_length h1 hlenEq
    rw [this, List.getLast?_reverse] at hasn
    exact hasn

/-- C1 witness at the fixture path set of `1.0.139.0/24` (origin
`23969`, bottleneck `38040`). -/
theorem c1_bottleneck_of_common_suffix_witness :
    resolve_address
        [[2497, 38040, 23969], [25152, 6939, 4766, 38040, 23969],
          [4777, 6939, 4766, 38040, 23969]] = .emit 38040 := by
  obtain ⟨cs, asn, h1, h2, h3, -, -, -, -⟩ :=
    c1_bottleneck_of_common_suffix
      [[2497, 38040, 23969], [25152, 6939, 4766, 38040, 23969],
        [4777, 6939, 4766, 38040, 23969]] 23969 (by decide) (by decide)
  have he : find_common_suffix_one
      [[2497, 38040, 23969], [25152, 6939, 4766, 38040, 23969],
        [4777, 6939, 4766, 38040, 23969]] = .ok [23969, 38040] := by decide
  rw [h1] at he
  have hcs : cs = [23969, 38040] := by
    injection he
  subst hcs
  simp only [List.getLast?] at h3
  have : asn = 38040 := by
    simpa using h3.symm
  rw [this] at h2
  exact h2

/-- C9: consecutive duplicate AS numbers are collapsed by
`Vec::dedup` before insertion, and the path set has set semantics: the
raw paths `[a, a, b]` and `[a, b]` dedup to the same sequence, feeding
both per-peer entries through `match_rib_entry` has exactly the effect
of feeding one, and re-inserting an existing path never creates a
second copy. -/
theorem c9_dedup_and_set_semantics :
    (∀ a b : Nat, dedupConsec [a, a, b] = dedupConsec [a, b]) ∧
    (∀ (a b : Nat) (ip : IpAddr) (mask : Nat) (m : MrtMap),
      match_rib_entry [some [a, a, b], some [a, b]] ip mask m =
        match_rib_entry [some [a, b]] ip mask m) ∧
    (∀ (s : PathSet) (p : List Nat),
      setInsert (setInsert s p) p = setInsert s p) := by
  refine ⟨?_, ?_, setInsert_idem⟩
  · intro a b
    simp [dedupConsec, dedupFrom]
  · intro a b ip mask m
    have hd : dedupConsec [a, a, b] = dedupConsec [a, b] := by
      simp [dedupConsec, dedupFrom]
    simp only [match_rib_entry, List.foldl_cons, List.foldl_nil, hd]
    exact mapInsertPath_idem m ⟨ip, mask⟩ (dedupConsec [a, b])

/-- C2 amended: during a bin's pass a record is merged into the bin's
batch map iff its leading address byte does not exceed the bin's upper
bound `start + W` (closed at the bound, not the half-open
`[start, start + W)` of the claim); the first record whose byte
exceeds the bound is merged into the carry-over map and the file's
remaining records are left unread; and every possible leading byte
(0-255) lies within the final bin's saturated bound 255, so no record
is ever excluded. -/
theorem c2_amended_closed_bin_rule :
    (∀ (stream : List MrtRecord) (endOct : Nat) (mrt_hm next_mrt_hm : MrtMap),
      parse_mrt stream endOct mrt_hm next_mrt_hm =
        parse_mrt_batchSpec stream endOct mrt_hm next_mrt_hm) ∧
    (∀ (stream : List MrtRecord) (endOct : Nat) (r : MrtRecord),
      r ∈ stream.takeWhile (fun r' => !isOutOfRange endOct r') →
      isOutOfRange endOct r = false) ∧
    (∀ r : MrtRecord, isOutOfRange (binEnd 240) r = false) := by
  refine ⟨parse_mrt_eq_spec, ?_, ?_⟩
  · intro stream endOct r hr
    have := List.mem_takeWhile_imp hr
    simpa using this
  · intro r
    have h240 : binEnd 240 = 255 := by decide
    cases r with
    | ribV4 p mask es =>
      simp only [isOutOfRange, h240, decide_eq_false_iff_not, not_lt]
      exact octet0_format_ip_le p true
    | ribV6 p mask es =>
      simp only [isOutOfRange, h240, decide_eq_false_iff_not, not_lt]
      exact octet0_format_ip_le p false
    | other => rfl
    | readErr => rfl

/-- C2 amended, witness: a stream whose second record (leading byte
17) exceeds the bound 16 of the first bin; the characterisation and
the in-range property applied at this concrete input. -/
theorem c2_amended_closed_bin_rule_witness :
    parse_mrt [.ribV4 [1] 24 [some [5]], .ribV4 [17] 24 [some [6]], .other]
        (binEnd 0) [] [] =
      parse_mrt_batchSpec
        [.ribV4 [1] 24 [some [5]], .ribV4 [17] 24 [some [6]], .other]
        (binEnd 0) [] [] ∧
    isOutOfRange (binEnd 0) (.ribV4 [1] 24 [some [5]]) = false :=
  ⟨c2_amended_closed_bin_rule.1
      [.ribV4 [1] 24 [some [5]], .ribV4 [17] 24 [some [6]], .other]
      (binEnd 0) [] [],
    c2_amended_closed_bin_rule.2.1
      [.ribV4 [1] 24 [some [5]], .ribV4 [17] 24 [some [6]], .other]
      (binEnd 0) (.ribV4 [1] 24 [some [5]]) (by decide)⟩

end FindBottleneck
